import Mathlib

/-!
Verification of the Taiga circuit toolkit against its specification.

The development is a shallow embedding of the repository's circuit gadgets.
Circuit cells are modelled by their assigned field values; `constrain_equal`
copy constraints are modelled as pairs of field values that a satisfying
assignment must make equal.  The concrete field used by the code
(`pallas::Base`) is a prime field; the development is parametric over an
arbitrary field `F`, which includes it.  Hash gadgets whose internals live in
the external `halo2_gadgets` / `plonk_hashing` libraries (Poseidon) are
abstracted as function parameters, exactly as the repository code treats them
as opaque sub-gadgets.
-/

section Merkle

variable {F : Type} [Field F]

/-- The value computed by `merkle_poseidon_gadget`
(taiga_halo2/src/circuit/merkle_circuit.rs, lines 61-113): starting from the
leaf cell `note_x`, for each path entry `(sibling, bit)` the `CondSwapChip`
swap sub-gadget turns the pair `(cur, sibling)` into `(sibling, cur)` when the
bit is true and leaves it as `(cur, sibling)` otherwise, and the arity-2
Poseidon hash gadget (abstracted as `hash2`) absorbs the ordered pair
`[pair.0, pair.1]` to produce the next level's value.  The value after the
last level is returned. -/
def merkle_poseidon_gadget (hash2 : F → F → F) (note_x : F)
    (merkle_path : List (F × Bool)) : F :=
  merkle_path.foldl
    (fun cur e =>
      let pair := if e.2 then (e.1, cur) else (cur, e.1)
      hash2 pair.1 pair.2)
    note_x

/-- Modelled from the spec: the native recomputation of the Merkle root
(`MerklePath::root` in the repository's `merkle_tree` module, which is not
part of the sources under verification).  Per the spec: starting from the
leaf, for each path level conditionally swap (leaf-so-far, sibling) according
to the direction bit (false = leaf is left child, true = leaf is right child),
then hash the ordered pair with the arity-2 hash to produce the next level's
value; after consuming all levels, the accumulated value is the root. -/
def nativeMerkleRoot (hash2 : F → F → F) (leaf : F)
    (path : List (F × Bool)) : F :=
  path.foldl
    (fun cur e => if e.2 then hash2 e.1 cur else hash2 cur e.1)
    leaf

end Merkle

section ResourceCommitment

variable {F : Type} [Field F]

/-- Definition of `bool_check` from `halo2_gadgets::utilities`: the degree-2 expression
`word * (1 - word)` whose vanishing enforces `word` to be boolean. -/
def bool_check (word : F) : F := word * (1 - word)

/-- The constant `two_pow_128` used by `ResourceCommitChip::configure`
(taiga_halo2/src/circuit/resource_commitment.rs, line 113):
`pallas::Base::from_u128(1 << 64).square()`. -/
def two_pow_128 : F := ((2 : F) ^ 64) ^ 2

/-- The gate created by `ComposeMerkleCheckQuantity::configure`
(resource_commitment.rs, lines 33-54).  With the `q_compose` selector
enabled on a row carrying the cell values `compose`, `is_merkle_checked` and
`quantity`, the gate requires both polynomial constraints to vanish:
`bool_check is_merkle_checked = 0` and
`compose - (quantity + is_merkle_checked * two_pow_128) = 0`. -/
def composeGate (compose is_merkle_checked quantity : F) : Prop :=
  bool_check is_merkle_checked = 0 ∧
    compose - (quantity + is_merkle_checked * two_pow_128) = 0

/-- The witness value assigned to the composed cell by
`ComposeMerkleCheckQuantity::assign` (resource_commitment.rs, lines 75-79):
`quantity + is_merkle_checked * from_u128(1 << 64).square()`. -/
def composeAssign (is_merkle_checked quantity : F) : F :=
  quantity + is_merkle_checked * two_pow_128

/-- The value computed by `resource_commit` (resource_commitment.rs, lines
143-178): compose `is_merkle_checked` and `quantity` into one field element,
then hash the message
`[app_vp, label, value, npk, nonce, psi, compose, rcm]` with the Poseidon
hash gadget (abstracted as `poseidonHash`). -/
def resource_commit (poseidonHash : List F → F)
    (app_vp label value npk nonce psi quantity is_merkle_checked rcm : F) :
    F :=
  let compose_is_merkle_checked_and_quantity :=
    composeAssign is_merkle_checked quantity
  poseidonHash
    [app_vp, label, value, npk, nonce, psi,
      compose_is_merkle_checked_and_quantity, rcm]

end ResourceCommitment

section Blake2s

variable {F : Type} [Field F]

/-- The value of the u64 expression `1u64 << k` under Rust release-build
semantics, where the shift amount is reduced modulo the 64-bit word size. -/
def u64ShlOne (k : Nat) : Nat := 2 ^ (k % 64)

/-- The cast `rotation as u64` applied to a (possibly negative) `i32`
rotation: the representative of `rotation` modulo `2^64`. -/
def i32AsU64 (rotation : Int) : Nat := (rotation % (2 ^ 64 : Int)).toNat

/-- The power-of-two factor computed by `Blake2sChip::rotate`
(taiga_halo2/src/circuit/blake2s.rs, lines 128-132):
`pallas::Base::from(1u64 << (rotation as u64 % pallas::Base::NUM_BITS as u64))`
with `NUM_BITS = 255`. -/
def rotatePowTwo (rotation : Int) : F :=
  ((u64ShlOne (i32AsU64 rotation % 255) : Nat) : F)

/-- The witness value assigned by `Blake2sChip::rotate` (blake2s.rs, lines
120-144): the input value multiplied by a power of two in the field. -/
def rotateVal (v : F) (rotation : Int) : F := v * rotatePowTwo rotation

/-- The witness value assigned by `Blake2sChip::shift_right` (blake2s.rs,
lines 146-170): the input multiplied by `divisor.invert().unwrap_or(0)` where
`divisor = 2^shift`; Lean's field inverse, with `0⁻¹ = 0`, has exactly the
`unwrap_or(zero)` semantics. -/
def shiftRightVal (v : F) (shift : Nat) : F := v * ((2 : F) ^ shift)⁻¹

/-- The witness value assigned by `Blake2sChip::add` (blake2s.rs, line 110):
the field sum of the two inputs. -/
def addVal (x y : F) : F := x + y

/-- The witness value assigned by `Blake2sChip::xor` (blake2s.rs, lines
89-92): `x + y - x * y`. -/
def xorVal (x y : F) : F := x + y - x * y

/-- A copy constraint (`region.constrain_equal`) between two cells, modelled
as the pair of their assigned values. -/
abbrev CopyConstraint (F : Type) := F × F

/-- A list of copy constraints holds when each pair of cell values agrees. -/
def copyConstraintsHold (cs : List (CopyConstraint F)) : Prop :=
  ∀ c ∈ cs, c.1 = c.2

/-- Output value and emitted copy constraints of a primitive Blake2s gadget. -/
structure GadgetResult (F : Type) where
  value : F
  constraints : List (CopyConstraint F)

/-- Gadget `Blake2sChip::add` (blake2s.rs, lines 102-118): assigns `x + y` and emits
`constrain_equal(x, result)` and `constrain_equal(y, result)`. -/
def addGadget (x y : F) : GadgetResult F :=
  { value := addVal x y
    constraints := [(x, addVal x y), (y, addVal x y)] }

/-- Gadget `Blake2sChip::xor` (blake2s.rs, lines 81-100): assigns `x + y - x * y`
and emits `constrain_equal(x, result)` and `constrain_equal(y, result)`. -/
def xorGadget (x y : F) : GadgetResult F :=
  { value := xorVal x y
    constraints := [(x, xorVal x y), (y, xorVal x y)] }

/-- Gadget `Blake2sChip::rotate` (blake2s.rs, lines 120-144): assigns the input
times a power of two and emits `constrain_equal(cell, rotated_cell)`. -/
def rotateGadget (v : F) (rotation : Int) : GadgetResult F :=
  { value := rotateVal v rotation
    constraints := [(v, rotateVal v rotation)] }

/-- Gadget `Blake2sChip::shift_right` (blake2s.rs, lines 146-170): assigns the input
times the inverse of `2^shift` and emits
`constrain_equal(cell, shifted_cell)`. -/
def shiftRightGadget (v : F) (shift : Nat) : GadgetResult F :=
  { value := shiftRightVal v shift
    constraints := [(v, shiftRightVal v shift)] }

/-- The bitwise 32-bit right-rotation with `2^32` wraparound that a sound
Blake2s/SHA-style gadget would enforce on a bit-decomposed word. -/
def rotr32 (w n : Nat) : Nat := ((w >>> n) + (w <<< (32 - n))) % 2 ^ 32

/-- The `SIGMA` message-permutation table (blake2s.rs, lines 16-27): a 10x16
array defining the message block order for each of the 10 rounds. -/
def SIGMA : List (List Nat) :=
  [[0, 1, 2, 3, 4, 5, 6, 7, 8, 9, 10, 11, 12, 13, 14, 15],
   [14, 10, 4, 8, 9, 15, 13, 6, 1, 12, 0, 2, 11, 7, 5, 3],
   [11, 8, 12, 0, 5, 2, 15, 13, 10, 14, 3, 6, 7, 1, 9, 4],
   [7, 9, 3, 1, 13, 12, 11, 14, 2, 6, 5, 10, 4, 0, 15, 8],
   [9, 0, 5, 7, 2, 4, 10, 15, 14, 1, 11, 12, 6, 8, 3, 13],
   [2, 12, 6, 10, 0, 11, 8, 3, 4, 13, 7, 5, 15, 14, 1, 9],
   [12, 5, 1, 15, 14, 13, 4, 10, 0, 7, 6, 3, 9, 2, 8, 11],
   [13, 11, 7, 14, 12, 1, 3, 9, 5, 0, 15, 4, 8, 6, 2, 10],
   [6, 15, 14, 9, 11, 3, 0, 8, 12, 2, 13, 7, 1, 4, 10, 5],
   [10, 2, 8, 4, 7, 6, 1, 5, 15, 11, 9, 14, 3, 12, 13, 0]]

/-- Entry `SIGMA[r][i]` as a total function. -/
def sigmaAt (r i : Nat) : Nat := (SIGMA.getD r []).getD i 0

/-- The eight-word internal state of the Blake2s chip, one field value per
`AssignedCell` of the `[AssignedCell; 8]` state array. -/
structure Blake2sState (F : Type) where
  v0 : F
  v1 : F
  v2 : F
  v3 : F
  v4 : F
  v5 : F
  v6 : F
  v7 : F
  deriving DecidableEq

/-- The state values computed by `Blake2sChip::g` (blake2s.rs, lines
172-219), the `round` argument only placing cells and not affecting values:
two mixing stages, each an add/add, xor, rotate, add, xor, rotate sequence,
returning `[a, b, c, d, state4, state5, state6, state7]`. -/
def gFunc (st : Blake2sState F) (m0 m1 : F) (_round : Nat) : Blake2sState F :=
  let a := addVal (addVal st.v0 st.v4) m0
  let d := rotateVal (xorVal st.v3 a) (-16)
  let c := addVal st.v2 d
  let b := rotateVal (xorVal st.v1 c) (-12)
  let a2 := addVal (addVal a b) m1
  let d2 := rotateVal (xorVal d a2) (-8)
  let c2 := addVal c d2
  let b2 := rotateVal (xorVal b c2) (-7)
  ⟨a2, b2, c2, d2, st.v4, st.v5, st.v6, st.v7⟩

/-- The `s0` bit-mixing sub-function of the message schedule (blake2s.rs,
lines 239-270): the xor of the rotations of the word by -7 and -18, further
xored with the word shifted right by 3. -/
def sZero (x : F) : F :=
  xorVal (xorVal (rotateVal x (-7)) (rotateVal x (-18))) (shiftRightVal x 3)

/-- The `s1` bit-mixing sub-function of the message schedule (blake2s.rs,
lines 272-303): the xor of the rotations of the word by -17 and -19, further
xored with the word shifted right by 10. -/
def sOne (x : F) : F :=
  xorVal (xorVal (rotateVal x (-17)) (rotateVal x (-19))) (shiftRightVal x 10)

/-- The new schedule word pushed at index `i` (blake2s.rs, lines 305-321):
`w[i-16] + s0(w[i-15]) + w[i-7] + s1(w[i-2])`, each `+` being the field
addition performed by the `add` gadget. -/
def scheduleWord (w : List F) (i : Nat) : F :=
  addVal
    (addVal (addVal (w.getD (i - 16) 0) (sZero (w.getD (i - 15) 0)))
      (w.getD (i - 7) 0))
    (sOne (w.getD (i - 2) 0))

/-- The full 64-entry message-schedule vector built by
`Blake2sChip::message_schedule` (blake2s.rs, lines 221-347): the first 16
words are copies of the message block, and each word `i` in `16..64` is
pushed as `scheduleWord` of the schedule built so far. -/
def message_schedule_words (b : Fin 16 → F) : List F :=
  (List.range' 16 48).foldl (fun w i => w ++ [scheduleWord w i]) (List.ofFn b)

/-- The 16 words returned by `Blake2sChip::message_schedule` (blake2s.rs,
lines 329-346): the first 16 entries of the 64-entry schedule vector. -/
def message_schedule (b : Fin 16 → F) : List F :=
  (message_schedule_words b).take 16

/-- The word-wise state addition of the finalization step
(blake2s.rs, lines 378-402): `add(state[i], current_state[i])` for each of
the eight words. -/
def stateAdd (x y : Blake2sState F) : Blake2sState F :=
  ⟨addVal x.v0 y.v0, addVal x.v1 y.v1, addVal x.v2 y.v2, addVal x.v3 y.v3,
    addVal x.v4 y.v4, addVal x.v5 y.v5, addVal x.v6 y.v6, addVal x.v7 y.v7⟩

/-- The state values computed by `Blake2sChip::compression_function`
(blake2s.rs, lines 349-405): compute the message schedule, then for each
round in `0..10` and each `g_index` in `0..8` apply `g` with the message
pair at schedule indices `SIGMA[round][2 * g_index]` and
`SIGMA[round][2 * g_index + 1]`, and finally add the initial state to the
current state word-wise. -/
def compression_function (st : Blake2sState F) (block : Fin 16 → F) :
    Blake2sState F :=
  let ms := message_schedule block
  let cur := (List.range 10).foldl
    (fun s round =>
      (List.range 8).foldl
        (fun s2 gi =>
          gFunc s2 (ms.getD (sigmaAt round (2 * gi)) 0)
            (ms.getD (sigmaAt round (2 * gi + 1)) 0) round)
        s)
    st
  stateAdd st cur

/-- One round of the compression function: the eight `g` invocations of a
round, with message pairs selected by the `SIGMA` row of the round. -/
def gRound (ms : List F) (round : Nat) (s : Blake2sState F) : Blake2sState F :=
  (List.range 8).foldl
    (fun s2 gi =>
      gFunc s2 (ms.getD (sigmaAt round (2 * gi)) 0)
        (ms.getD (sigmaAt round (2 * gi + 1)) 0) round)
    s

end Blake2s

section Composer

variable {F : Type} [Field F]

/-- A shallow model of the plonk `StandardComposer` as used by the balance
VP: variables are indices into a list of assigned values, and
`assert_equal` constraints are pairs of variable indices.  Variable `0` is
the composer's zero variable. -/
structure Composer (F : Type) where
  vals : List F
  eqs : List (Nat × Nat)

/-- A composer's `assert_equal` constraints are satisfied when each
constrained pair of variables carries equal values. -/
def Composer.satisfied (c : Composer F) : Prop :=
  ∀ p ∈ c.eqs, c.vals.getD p.1 0 = c.vals.getD p.2 0

/-- Operation `StandardComposer::assert_equal`: records an equality constraint between
two variables. -/
def Composer.assert_equal (c : Composer F) (a b : Nat) : Composer F :=
  { c with eqs := c.eqs ++ [(a, b)] }

/-- Modelled from the spec: `field_addition_gadget`
(src/circuit/gadgets/field_addition.rs, not among the sources under
verification), the field-addition gadget used by the balance VP: allocates a
new variable constrained to (and, with the honest witness, assigned) the
field sum of the two input variables' values. -/
def field_addition_gadget (c : Composer F) (a b : Nat) : Composer F × Nat :=
  ({ c with vals := c.vals ++ [c.vals.getD a 0 + c.vals.getD b 0] },
    c.vals.length)

/-- Constraints of `BalanceValidityPredicate::custom_constraints`
(src/circuit/vp_examples/balance.rs, lines 30-50): fold the input note value
variables with the field-addition gadget starting from the zero variable,
likewise the output note value variables, and assert the two sums equal. -/
def balance_custom_constraints (c : Composer F)
    (inputVars outputVars : List Nat) : Composer F :=
  let pIn := inputVars.foldl
    (fun (p : Composer F × Nat) v => field_addition_gadget p.1 p.2 v) (c, 0)
  let pOut := outputVars.foldl
    (fun (p : Composer F × Nat) v => field_addition_gadget p.1 p.2 v)
    (pIn.1, 0)
  Composer.assert_equal pOut.1 pIn.2 pOut.2

/-- The balance VP run on notes with the given input and output quantities:
a composer holding the zero variable and one value variable per note, then
`balance_custom_constraints` over those variables. -/
def balanceVpComposer (inQs outQs : List F) : Composer F :=
  let c0 : Composer F := ⟨0 :: (inQs ++ outQs), []⟩
  let inputVars := (List.range inQs.length).map (fun i => i + 1)
  let outputVars :=
    (List.range outQs.length).map (fun i => i + inQs.length + 1)
  balance_custom_constraints c0 inputVars outputVars

end Composer

section Blinding

/-- The transcript domain-separation labels bound when constructing a plonk
prover or verifier: the initial label passed to `new` and the two byte
strings passed to `key_transcript`. -/
structure TranscriptLabels where
  initLabel : String
  keyLabel : String
  seedLabel : String
  deriving DecidableEq

/-- The labels bound by `BlindingCircuit::precompute_prover`
(src/circuit/blinding_circuit.rs, lines 54-55):
`Prover::new(b"demo")` then
`prover.key_transcript(b"key", b"additional seed information")`. -/
def precompute_prover_labels : TranscriptLabels :=
  ⟨"demo", "key", "additional seed information"⟩

/-- The labels bound by `BlindingCircuit::precompute_verifier`
(src/circuit/blinding_circuit.rs, lines 78-80):
`Verifier::new(b"demo")` then
`verifier.key_transcript(b"key", b"additional seed information")`. -/
def precompute_verifier_labels : TranscriptLabels :=
  ⟨"demo", "key", "additional seed information"⟩

/-- Outcome of a Rust function that returns `()` after `.unwrap()`-ing a
`Result`: either it returns successfully or the unwrap panics. -/
inductive UnwrapOutcome where
  | success
  | panicked
  deriving DecidableEq

/-- Semantics of `Result::unwrap()` on a `Result<(), E>`: success on `Ok`, panic on
`Err`. -/
def unwrapUnit {E : Type} : Except E Unit → UnwrapOutcome
  | .ok _ => .success
  | .error _ => .panicked

/-- The `BlindingCircuit` state (src/circuit/blinding_circuit.rs, lines
11-19): the outer public input, outer proof, embedded verifier and outer
verifying key, all immutable once constructed.  The embedded plonk
`Verifier::verify` method (an external collaborator returning
`Result<(), Error>`) is abstracted as the function field
`verifierVerify`. -/
structure BlindingCircuitModel (Pf VK PI E : Type) where
  public_input : PI
  proof : Pf
  verifierVerify : Pf → VK → PI → Except E Unit
  vk : VK

/-- Method `BlindingCircuit::verify` (src/circuit/blinding_circuit.rs, lines
128-133): calls
`self.verifier.verify(&self.proof, &self.vk, &self.public_input).unwrap()`
and returns `()`; the typed failure of the inner check is consumed by the
unwrap, which panics. -/
def BlindingCircuitModel.verify {Pf VK PI E : Type}
    (c : BlindingCircuitModel Pf VK PI E) : UnwrapOutcome :=
  unwrapUnit (c.verifierVerify c.proof c.vk c.public_input)

/-- A concrete `BlindingCircuitModel` whose embedded verifier rejects the
stored proof with a typed failure. -/
def rejectingBlindingCircuit : BlindingCircuitModel Unit Unit Unit Unit :=
  ⟨(), (), fun _ _ _ => .error (), ()⟩

end Blinding

section VPDefault

/-- A synthesis state: the constraints emitted so far by a circuit's
`synthesize`, standing in for the halo2 layouter. -/
structure SynthesisState (C : Type) where
  constraints : List C

/-- The default implementation of
`ValidityPredicateCircuit::custom_constraints`
(taiga_halo2/src/circuit/vp_circuit.rs, lines 124-132): ignores the
configuration, the layouter, and the input and output note variables, emits
nothing, and returns `Ok(())`. -/
def vpDefaultCustomConstraints {Cfg SV OV C E : Type} (_config : Cfg)
    (layouter : SynthesisState C) (_inputNoteVariables : List SV)
    (_outputNoteVariables : List OV) :
    Except E (Unit × SynthesisState C) :=
  .ok ((), layouter)

/-- A VP circuit's synthesis: run the mandatory `basic_constraints`, then
the (possibly overridden) `custom_constraints` on the resulting state. -/
def synthesizeWith {C E : Type}
    (basic : SynthesisState C → SynthesisState C)
    (custom : SynthesisState C → Except E (Unit × SynthesisState C))
    (st : SynthesisState C) : Except E (SynthesisState C) :=
  match custom (basic st) with
  | .ok (_, st2) => .ok st2
  | .error e => .error e

end VPDefault

section Theorems

/-- Claim C1: the Merkle gadget starts from the leaf; at each level it
cond-swaps the running value with the sibling according to the direction bit
(false = running value left, true = running value right) and hashes the
ordered pair with the arity-2 hash; the accumulated value after the last
level is the claimed root and equals the native recomputation of the root
from the same leaf and path. -/
theorem merkle_poseidon_gadget_correct {F : Type} [Field F]
    (hash2 : F → F → F) (leaf sib : F) (dir : Bool)
    (path : List (F × Bool)) :
    merkle_poseidon_gadget hash2 leaf ([] : List (F × Bool)) = leaf ∧
      merkle_poseidon_gadget hash2 leaf ((sib, dir) :: path) =
        merkle_poseidon_gadget hash2
          (if dir then hash2 sib leaf else hash2 leaf sib) path ∧
      merkle_poseidon_gadget hash2 leaf path =
        nativeMerkleRoot hash2 leaf path := by
  refine ⟨rfl, ?_, ?_⟩
  · cases dir <;> rfl
  · unfold merkle_poseidon_gadget nativeMerkleRoot
    apply List.foldl_ext
    intro cur e _
    cases h : e.2 <;> simp [h]

/-- Claim C2: the compose gate constrains the composed cell to
`quantity + is_merkle_checked * 2^128` and enforces
`is_merkle_checked ∈ {0, 1}`; the assigned compose value is that same field
element, and the resource commitment is the Poseidon hash absorbing the
composed value together with the other resource fields in the order
`[app_vp, label, value, npk, nonce, psi, compose, rcm]`. -/
theorem resource_commitment_compose_correct {F : Type} [Field F]
    (compose is_merkle_checked quantity : F) (poseidonHash : List F → F)
    (app_vp label value npk nonce psi rcm : F) :
    (composeGate compose is_merkle_checked quantity ↔
        (is_merkle_checked = 0 ∨ is_merkle_checked = 1) ∧
          compose = quantity + is_merkle_checked * 2 ^ 128) ∧
      (two_pow_128 : F) = 2 ^ 128 ∧
      composeAssign is_merkle_checked quantity =
        quantity + is_merkle_checked * 2 ^ 128 ∧
      resource_commit poseidonHash app_vp label value npk nonce psi quantity
          is_merkle_checked rcm =
        poseidonHash
          [app_vp, label, value, npk, nonce, psi,
            quantity + is_merkle_checked * 2 ^ 128, rcm] := by
  have htp : (two_pow_128 : F) = 2 ^ 128 := by
    rw [two_pow_128, ← pow_mul]
  refine ⟨?_, htp, ?_, ?_⟩
  · unfold composeGate bool_check
    rw [htp]
    constructor
    · rintro ⟨h1, h2⟩
      refine ⟨?_, by linear_combination h2⟩
      rcases mul_eq_zero.mp h1 with h | h
      · exact Or.inl h
      · exact Or.inr (by linear_combination -h)
    · rintro ⟨h1, h2⟩
      refine ⟨?_, by linear_combination h2⟩
      rcases h1 with h | h
      · rw [h]; ring
      · rw [h]; ring
  · rw [composeAssign, htp]
  · rw [resource_commit, composeAssign, htp]

/-- Claim C3: in the Blake2s chip, `rotate` assigns the input field value
multiplied by a power of two (with exponent reduced modulo the field bit
size and the 64-bit shift width), and `shift_right` assigns the input
multiplied by the field inverse of `2^shift`; neither matches the true
bitwise rotation or shift on a 32-bit word with `2^32` wraparound. -/
theorem blake2s_rotate_shift_are_field_operations :
    (∀ (F : Type) [Field F] (v : F) (rotation : Int),
        (rotateGadget v rotation).value =
          v * (2 : F) ^ (i32AsU64 rotation % 255 % 64)) ∧
      (∀ (F : Type) [Field F] (v : F) (shift : Nat),
        (shiftRightGadget v shift).value = v * ((2 : F) ^ shift)⁻¹) ∧
      (∃ w : Nat, w < 2 ^ 32 ∧
        rotateVal ((w : Nat) : ℚ) (-16) ≠ ((rotr32 w 16 : Nat) : ℚ)) ∧
      (∃ w : Nat, w < 2 ^ 32 ∧
        shiftRightVal ((w : Nat) : ℚ) 3 ≠ ((w >>> 3 : Nat) : ℚ)) := by
  refine ⟨?_, ?_, ?_, ?_⟩
  · intro F _ v rotation
    unfold rotateGadget rotateVal rotatePowTwo u64ShlOne
    push_cast
    ring
  · intro F _ v shift
    rfl
  · refine ⟨1, by norm_num, ?_⟩
    have e1 : u64ShlOne (i32AsU64 (-16) % 255) = 281474976710656 := by decide
    have e2 : rotr32 1 16 = 65536 := by decide
    unfold rotateVal rotatePowTwo
    rw [e1, e2]
    push_cast
    norm_num
  · refine ⟨1, by norm_num, ?_⟩
    have e3 : (1 : Nat) >>> 3 = 0 := by decide
    unfold shiftRightVal
    rw [e3]
    push_cast
    norm_num

/-- Claim C4: each primitive Blake2s gadget emits `constrain_equal` between
every input cell and its output cell; consequently the constraints of `add`
hold only when both inputs are zero, and those of `xor` only when the inputs
are equal and boolean. -/
theorem blake2s_primitive_gadget_constraints {F : Type} [Field F]
    (x y v : F) (rotation : Int) (shift : Nat) :
    (addGadget x y).constraints =
        [(x, (addGadget x y).value), (y, (addGadget x y).value)] ∧
      (xorGadget x y).constraints =
        [(x, (xorGadget x y).value), (y, (xorGadget x y).value)] ∧
      (rotateGadget v rotation).constraints =
        [(v, (rotateGadget v rotation).value)] ∧
      (shiftRightGadget v shift).constraints =
        [(v, (shiftRightGadget v shift).value)] ∧
      (copyConstraintsHold (addGadget x y).constraints ↔ x = 0 ∧ y = 0) ∧
      (copyConstraintsHold (xorGadget x y).constraints ↔
        x = y ∧ (x = 0 ∨ x = 1)) := by
  refine ⟨rfl, rfl, rfl, rfl, ?_, ?_⟩
  · simp only [copyConstraintsHold, addGadget, addVal, List.mem_cons,
      List.not_mem_nil, or_false, forall_eq_or_imp, forall_eq]
    constructor
    · rintro ⟨h1, h2⟩
      exact ⟨by linear_combination -h2, by linear_combination -h1⟩
    · rintro ⟨hx, hy⟩
      subst hx
      subst hy
      constructor <;> ring
  · simp only [copyConstraintsHold, xorGadget, xorVal, List.mem_cons,
      List.not_mem_nil, or_false, forall_eq_or_imp, forall_eq]
    constructor
    · rintro ⟨h1, h2⟩
      have hxy : x = y := h1.trans h2.symm
      have hy1 : y * (1 - x) = 0 := by linear_combination -h1
      rcases mul_eq_zero.mp hy1 with h0 | h0
      · exact ⟨hxy, Or.inl (hxy.trans h0)⟩
      · exact ⟨hxy, Or.inr (by linear_combination -h0)⟩
    · rintro ⟨hxy, hx⟩
      subst hxy
      rcases hx with h0 | h0 <;> subst h0 <;> constructor <;> ring

/-- Claim C8: `BlindingCircuit::precompute_prover` and
`BlindingCircuit::precompute_verifier` bind byte-identical transcript
domain-separation labels: the same initial label and the same
key-transcript byte strings on both sides. -/
theorem blinding_transcript_labels_match :
    precompute_prover_labels = precompute_verifier_labels := rfl

/-- Claim C9 (counterexample): on a `BlindingCircuit` whose embedded
verifier rejects the stored proof with a typed failure, `verify` does not
return that failure to its caller — the `unwrap` panics, so the outcome of
`verify` is a panic rather than a returned typed error. -/
theorem blinding_verify_panics_on_failure :
    rejectingBlindingCircuit.verifierVerify rejectingBlindingCircuit.proof
        rejectingBlindingCircuit.vk rejectingBlindingCircuit.public_input =
        Except.error () ∧
      rejectingBlindingCircuit.verify = UnwrapOutcome.panicked :=
  ⟨rfl, rfl⟩

/-- Claim C9 (amended): `BlindingCircuit::verify` checks the stored outer
proof against the stored outer verifying key and the stored outer public
input; it returns successfully exactly when the embedded verifier accepts,
and panics (via `unwrap`) exactly when the embedded verifier returns a typed
failure, rather than propagating that failure to its caller. -/
theorem blinding_verify_checks_stored_data {Pf VK PI E : Type}
    (c : BlindingCircuitModel Pf VK PI E) :
    (c.verify = UnwrapOutcome.success ↔
        c.verifierVerify c.proof c.vk c.public_input = Except.ok ()) ∧
      (c.verify = UnwrapOutcome.panicked ↔
        ∃ e, c.verifierVerify c.proof c.vk c.public_input =
          Except.error e) := by
  unfold BlindingCircuitModel.verify
  cases h : c.verifierVerify c.proof c.vk c.public_input with
  | ok u =>
    cases u
    simp [unwrapUnit]
  | error e =>
    simp [unwrapUnit]

/-- Claim C10: the default `ValidityPredicateCircuit::custom_constraints`
emits no constraints and returns `Ok(())` for every configuration, layouter
state, and set of input/output note variables; composed after any
`basic_constraints`, the synthesized constraints are exactly those of
`basic_constraints`. -/
theorem vp_default_custom_constraints_trivial {Cfg SV OV C E : Type}
    (config : Cfg) (layouter : SynthesisState C)
    (inputNoteVariables : List SV) (outputNoteVariables : List OV)
    (basic : SynthesisState C → SynthesisState C)
    (st : SynthesisState C) :
    vpDefaultCustomConstraints (E := E) config layouter inputNoteVariables
        outputNoteVariables = Except.ok ((), layouter) ∧
      synthesizeWith basic
          (fun s =>
            vpDefaultCustomConstraints (E := E) config s inputNoteVariables
              outputNoteVariables)
          st = Except.ok (basic st) ∧
      (synthesizeWith basic
            (fun s =>
              vpDefaultCustomConstraints (E := E) config s inputNoteVariables
                outputNoteVariables)
            st).map SynthesisState.constraints =
        Except.ok (basic st).constraints :=
  ⟨rfl, rfl, rfl⟩

/-- Claim C5: the compression function performs exactly 10 rounds, each
round invoking `g` exactly 8 times with the message pair at schedule indices
`SIGMA[r][2i]` and `SIGMA[r][2i+1]` of the fixed 10x16 permutation table;
each `g` call performs two add/xor/rotate mixing stages; after the rounds
the state is finalized by word-wise addition of the initial state with the
current state. -/
theorem compression_function_spec {F : Type} [Field F]
    (st s : Blake2sState F) (block : Fin 16 → F) (ms : List F)
    (m0 m1 : F) (round : Nat) (x y : Blake2sState F) :
    compression_function st block =
      stateAdd st
        (gRound (message_schedule block) 9
          (gRound (message_schedule block) 8
            (gRound (message_schedule block) 7
              (gRound (message_schedule block) 6
                (gRound (message_schedule block) 5
                  (gRound (message_schedule block) 4
                    (gRound (message_schedule block) 3
                      (gRound (message_schedule block) 2
                        (gRound (message_schedule block) 1
                          (gRound (message_schedule block) 0 st)))))))))) ∧
      gRound ms round s =
        gFunc
          (gFunc
            (gFunc
              (gFunc
                (gFunc
                  (gFunc
                    (gFunc
                      (gFunc s (ms.getD (sigmaAt round 0) 0)
                        (ms.getD (sigmaAt round 1) 0) round)
                      (ms.getD (sigmaAt round 2) 0)
                      (ms.getD (sigmaAt round 3) 0) round)
                    (ms.getD (sigmaAt round 4) 0)
                    (ms.getD (sigmaAt round 5) 0) round)
                  (ms.getD (sigmaAt round 6) 0)
                  (ms.getD (sigmaAt round 7) 0) round)
                (ms.getD (sigmaAt round 8) 0)
                (ms.getD (sigmaAt round 9) 0) round)
              (ms.getD (sigmaAt round 10) 0)
              (ms.getD (sigmaAt round 11) 0) round)
            (ms.getD (sigmaAt round 12) 0)
            (ms.getD (sigmaAt round 13) 0) round)
          (ms.getD (sigmaAt round 14) 0)
          (ms.getD (sigmaAt round 15) 0) round ∧
      SIGMA.length = 10 ∧
      (∀ r : Fin 10, (SIGMA.getD r []).length = 16) ∧
      (∀ r : Fin 10, (SIGMA.getD r []).Perm (List.range 16)) ∧
      gFunc st m0 m1 round =
        (let a1 := addVal (addVal st.v0 st.v4) m0
         let d1 := rotateVal (xorVal st.v3 a1) (-16)
         let c1 := addVal st.v2 d1
         let b1 := rotateVal (xorVal st.v1 c1) (-12)
         let a2 := addVal (addVal a1 b1) m1
         let d2 := rotateVal (xorVal d1 a2) (-8)
         let c2 := addVal c1 d2
         let b2 := rotateVal (xorVal b1 c2) (-7)
         ⟨a2, b2, c2, d2, st.v4, st.v5, st.v6, st.v7⟩) ∧
      stateAdd x y =
        ⟨x.v0 + y.v0, x.v1 + y.v1, x.v2 + y.v2, x.v3 + y.v3, x.v4 + y.v4,
          x.v5 + y.v5, x.v6 + y.v6, x.v7 + y.v7⟩ := by
  refine ⟨rfl, rfl, rfl, ?_, ?_, rfl, rfl⟩
  · decide
  · decide

/-- The length of the message-schedule fold: each visited index appends
exactly one word. -/
theorem schedFold_length {F : Type} [Field F] :
    ∀ (k a : Nat) (w : List F),
      ((List.range' a k).foldl (fun w i => w ++ [scheduleWord w i]) w).length
        = w.length + k := by
  intro k
  induction k with
  | zero => intro a w; rfl
  | succ n ih =>
    intro a w
    rw [List.range'_succ, List.foldl_cons, ih]
    simp
    omega

/-- Entries below the current length are unchanged by the message-schedule
fold. -/
theorem schedFold_getD_stable {F : Type} [Field F] :
    ∀ (k a : Nat) (w : List F) (j : Nat), j < w.length →
      ((List.range' a k).foldl (fun w i => w ++ [scheduleWord w i]) w).getD
          j 0 = w.getD j 0 := by
  intro k
  induction k with
  | zero => intro a w j _; rfl
  | succ n ih =>
    intro a w j hj
    rw [List.range'_succ, List.foldl_cons]
    rw [ih (a + 1) _ j (by simp; omega)]
    exact List.getD_append _ _ _ _ hj

/-- The function `scheduleWord` reads only entries strictly below the index, so appending
to the schedule does not change it. -/
theorem scheduleWord_append_stable {F : Type} [Field F] (w t : List F)
    (i : Nat) (h2 : 2 ≤ i) (hi : i ≤ w.length) :
    scheduleWord (w ++ t) i = scheduleWord w i := by
  unfold scheduleWord
  rw [List.getD_append _ _ _ _ (by omega), List.getD_append _ _ _ _ (by omega),
    List.getD_append _ _ _ _ (by omega), List.getD_append _ _ _ _ (by omega)]

/-- The message-schedule fold preserves the recurrence invariant: every
entry at index at least 16 equals `scheduleWord` of the schedule at that
index. -/
theorem schedFold_spec {F : Type} [Field F] :
    ∀ (k a : Nat) (w : List F), w.length = a → 16 ≤ a →
      (∀ i, 16 ≤ i → i < w.length → w.getD i 0 = scheduleWord w i) →
      ∀ i, 16 ≤ i →
        i < ((List.range' a k).foldl
          (fun w i => w ++ [scheduleWord w i]) w).length →
        ((List.range' a k).foldl (fun w i => w ++ [scheduleWord w i]) w).getD
            i 0 =
          scheduleWord
            ((List.range' a k).foldl (fun w i => w ++ [scheduleWord w i]) w)
            i := by
  intro k
  induction k with
  | zero =>
    intro a w hlen _ hinv i h16 hi
    exact hinv i h16 hi
  | succ n ih =>
    intro a w hlen ha hinv i h16 hi
    rw [List.range'_succ, List.foldl_cons] at hi ⊢
    refine ih (a + 1) (w ++ [scheduleWord w a]) (by simp [hlen]) (by omega)
      ?_ i h16 hi
    intro j hj16 hjlen
    have hjlen' : j < w.length + 1 := by simpa using hjlen
    rcases Nat.lt_or_ge j w.length with hcase | hcase
    · rw [List.getD_append _ _ _ _ hcase, hinv j hj16 hcase,
        scheduleWord_append_stable w _ j (by omega) (by omega)]
    · have hja : j = w.length := by omega
      subst hja
      rw [List.getD_append_right _ _ _ _ hcase]
      simp only [Nat.sub_self, List.getD_cons_zero]
      rw [scheduleWord_append_stable w _ w.length (by omega) (by omega), hlen]

/-- Claim C6: the message schedule produces 64 words; words `0..15` are
copies of the message-block words, and each word `i` in `16..63` equals
`w[i-16] + s0 + w[i-7] + s1`, where `s0` is the xor of two rotations of
`w[i-15]` further xored with `w[i-15]` shifted right by 3, and `s1` is the
xor of two rotations of `w[i-2]` further xored with `w[i-2]` shifted right
by 10. -/
theorem message_schedule_words_spec {F : Type} [Field F] (b : Fin 16 → F) :
    (message_schedule_words b).length = 64 ∧
      (∀ i : Fin 16, (message_schedule_words b).getD i 0 = b i) ∧
      (∀ i, 16 ≤ i → i < 64 →
        (message_schedule_words b).getD i 0 =
          addVal
            (addVal
              (addVal ((message_schedule_words b).getD (i - 16) 0)
                (sZero ((message_schedule_words b).getD (i - 15) 0)))
              ((message_schedule_words b).getD (i - 7) 0))
            (sOne ((message_schedule_words b).getD (i - 2) 0))) ∧
      (∀ x : F, sZero x =
        xorVal (xorVal (rotateVal x (-7)) (rotateVal x (-18)))
          (shiftRightVal x 3)) ∧
      (∀ x : F, sOne x =
        xorVal (xorVal (rotateVal x (-17)) (rotateVal x (-19)))
          (shiftRightVal x 10)) := by
  have hlen : (message_schedule_words b).length = 64 := by
    unfold message_schedule_words
    rw [schedFold_length]
    simp
  refine ⟨hlen, ?_, ?_, fun _ => rfl, fun _ => rfl⟩
  · intro i
    unfold message_schedule_words
    rw [schedFold_getD_stable 48 16 _ i (by simp)]
    rw [List.getD_eq_getElem _ _ (by simp)]
    rw [List.getElem_ofFn]
  · intro i h16 h64
    have h := schedFold_spec 48 16 (List.ofFn b) (by simp) (by omega)
      (fun j hj16 hjlt => by simp at hjlt; omega) i h16
      (by rw [schedFold_length]; simp; omega)
    unfold message_schedule_words
    rw [h]
    rfl

/-- Witness for the message-schedule recurrence at the first expanded index
`i = 16`. -/
theorem message_schedule_words_spec_witness :
    16 ≤ 16 ∧ 16 < 64 ∧
      (message_schedule_words (fun _ => (1 : ℚ))).getD 16 0 =
        addVal
          (addVal
            (addVal
              ((message_schedule_words (fun _ => (1 : ℚ))).getD (16 - 16) 0)
              (sZero
                ((message_schedule_words (fun _ => (1 : ℚ))).getD (16 - 15)
                  0)))
            ((message_schedule_words (fun _ => (1 : ℚ))).getD (16 - 7) 0))
          (sOne
            ((message_schedule_words (fun _ => (1 : ℚ))).getD (16 - 2) 0)) :=
  ⟨by norm_num, by norm_num,
    (message_schedule_words_spec (fun _ => (1 : ℚ))).2.2.1 16 (by norm_num)
      (by norm_num)⟩

/-- Folding the field-addition gadget over a variable list: constraints are
unchanged, one value is appended per variable, the returned variable holds
the initial variable's value plus the sum of the listed variables' values,
and existing entries are unchanged. -/
theorem fag_foldl_spec {F : Type} [Field F] :
    ∀ (vars : List Nat) (c : Composer F) (a : Nat),
      ((vars.foldl
            (fun (p : Composer F × Nat) v => field_addition_gadget p.1 p.2 v)
            (c, a)).1.eqs = c.eqs) ∧
        ((vars.foldl
            (fun (p : Composer F × Nat) v => field_addition_gadget p.1 p.2 v)
            (c, a)).1.vals.length = c.vals.length + vars.length) ∧
        (a < c.vals.length → (∀ v ∈ vars, v < c.vals.length) →
          ((vars.foldl
              (fun (p : Composer F × Nat) v =>
                field_addition_gadget p.1 p.2 v)
              (c, a)).2 <
              (vars.foldl
                (fun (p : Composer F × Nat) v =>
                  field_addition_gadget p.1 p.2 v)
                (c, a)).1.vals.length ∧
            (vars.foldl
                (fun (p : Composer F × Nat) v =>
                  field_addition_gadget p.1 p.2 v)
                (c, a)).1.vals.getD
                ((vars.foldl
                  (fun (p : Composer F × Nat) v =>
                    field_addition_gadget p.1 p.2 v)
                  (c, a)).2) 0 =
              c.vals.getD a 0 + (vars.map (fun v => c.vals.getD v 0)).sum ∧
            ∀ j, j < c.vals.length →
              (vars.foldl
                  (fun (p : Composer F × Nat) v =>
                    field_addition_gadget p.1 p.2 v)
                  (c, a)).1.vals.getD j 0 = c.vals.getD j 0)) := by
  intro vars
  induction vars with
  | nil =>
    intro c a
    exact ⟨rfl, by simp, fun ha _ => ⟨ha, by simp, fun j _ => rfl⟩⟩
  | cons v vs ih =>
    intro c a
    simp only [List.foldl_cons]
    have hstep : field_addition_gadget c a v =
        (⟨c.vals ++ [c.vals.getD a 0 + c.vals.getD v 0], c.eqs⟩,
          c.vals.length) := rfl
    rw [hstep]
    obtain ⟨ihEqs, ihLen, ihRest⟩ :=
      ih ⟨c.vals ++ [c.vals.getD a 0 + c.vals.getD v 0], c.eqs⟩ c.vals.length
    refine ⟨ihEqs, ?_, ?_⟩
    · rw [ihLen]
      simp only [List.length_append, List.length_cons, List.length_nil]
      omega
    · intro ha hv
      have hva : v < c.vals.length := hv v (List.mem_cons_self v vs)
      obtain ⟨hb, hval, hstab⟩ := ihRest (by simp) (fun u hu => by
        have := hv u (List.mem_cons_of_mem _ hu)
        simp only [List.length_append, List.length_cons, List.length_nil]
        omega)
      refine ⟨hb, ?_, ?_⟩
      · rw [hval]
        have h1 : (c.vals ++
            [c.vals.getD a 0 + c.vals.getD v 0]).getD c.vals.length 0 =
            c.vals.getD a 0 + c.vals.getD v 0 := by
          rw [List.getD_append_right _ _ _ _ (le_refl _)]
          simp
        have h2 : vs.map (fun u =>
            (c.vals ++ [c.vals.getD a 0 + c.vals.getD v 0]).getD u 0) =
            vs.map (fun u => c.vals.getD u 0) := by
          apply List.map_congr_left
          intro u hu
          exact List.getD_append _ _ _ _ (hv u (List.mem_cons_of_mem _ hu))
        rw [h1, h2, List.map_cons, List.sum_cons, add_assoc]
      · intro j hj
        rw [hstab j (by
          simp only [List.length_append, List.length_cons, List.length_nil]
          omega)]
        exact List.getD_append _ _ _ _ hj

/-- Mapping `getD` over the index range of a list reproduces the list. -/
theorem map_range_getD {F : Type} [Field F] (l : List F) :
    (List.range l.length).map (fun i => l.getD i 0) = l := by
  apply List.ext_getElem
  · simp
  · intro i h1 h2
    simp only [List.getElem_map, List.getElem_range]
    rw [List.getD_eq_getElem _ _ h2]

/-- Running `balance_custom_constraints` on a fresh composer is satisfied exactly
when the field-sum of the input variables' values equals the field-sum of
the output variables' values. -/
theorem balance_custom_constraints_satisfied_iff {F : Type} [Field F]
    (c : Composer F) (inVars outVars : List Nat) (hc : c.eqs = [])
    (h0 : c.vals.getD 0 0 = 0) (h0len : 0 < c.vals.length)
    (hin : ∀ v ∈ inVars, v < c.vals.length)
    (hout : ∀ v ∈ outVars, v < c.vals.length) :
    Composer.satisfied (balance_custom_constraints c inVars outVars) ↔
      (inVars.map (fun v => c.vals.getD v 0)).sum =
        (outVars.map (fun v => c.vals.getD v 0)).sum := by
  obtain ⟨e1, l1, rest1⟩ := fag_foldl_spec inVars c 0
  obtain ⟨b1, val1, stab1⟩ := rest1 h0len hin
  obtain ⟨e2, l2, rest2⟩ :=
    fag_foldl_spec outVars
      (inVars.foldl
        (fun (p : Composer F × Nat) v => field_addition_gadget p.1 p.2 v)
        (c, 0)).1 0
  obtain ⟨b2, val2, stab2⟩ := rest2 (by omega)
    (fun v hv => by have := hout v hv; omega)
  unfold balance_custom_constraints Composer.assert_equal Composer.satisfied
  simp only [e2, e1, hc, List.nil_append, List.mem_singleton, forall_eq]
  rw [stab2 _ b1, val2, val1, stab1 0 h0len, h0]
  have hmap : outVars.map (fun v =>
      (inVars.foldl
        (fun (p : Composer F × Nat) v => field_addition_gadget p.1 p.2 v)
        (c, 0)).1.vals.getD v 0) =
      outVars.map (fun v => c.vals.getD v 0) :=
    List.map_congr_left (fun v hv => stab1 v (hout v hv))
  rw [hmap, zero_add, zero_add]

/-- Claim C7: the balance VP's `custom_constraints` asserts that the
field-sum of the input notes' value variables (accumulated from the zero
variable via the field-addition gadget) equals the field-sum of the output
notes' value variables; quantities `[5, 7]` against `[7, 5]` satisfy the
constraint while `[5, 7]` against `[7, 6]` do not. -/
theorem balance_vp_sum_constraint {F : Type} [Field F]
    (inQs outQs : List F) :
    (Composer.satisfied (balanceVpComposer inQs outQs) ↔
        inQs.sum = outQs.sum) ∧
      Composer.satisfied (balanceVpComposer ([5, 7] : List ℚ) [7, 5]) ∧
      ¬ Composer.satisfied (balanceVpComposer ([5, 7] : List ℚ) [7, 6]) := by
  have key : ∀ (G : Type) (_ : Field G) (ins outs : List G),
      Composer.satisfied (balanceVpComposer ins outs) ↔
        ins.sum = outs.sum := by
    intro G _ ins outs
    unfold balanceVpComposer
    have hinvals : ((List.range ins.length).map (fun i => i + 1)).map
        (fun v => ((0 : G) :: (ins ++ outs)).getD v 0) = ins := by
      rw [List.map_map]
      have hcong : ∀ i ∈ List.range ins.length,
          ((fun v => ((0 : G) :: (ins ++ outs)).getD v 0) ∘ fun i => i + 1) i
            = ins.getD i 0 := by
        intro i hi
        simp only [Function.comp_apply, List.getD_cons_succ]
        exact List.getD_append _ _ _ _ (List.mem_range.mp hi)
      rw [List.map_congr_left hcong, map_range_getD]
    have houtvals : ((List.range outs.length).map
        (fun i => i + ins.length + 1)).map
        (fun v => ((0 : G) :: (ins ++ outs)).getD v 0) = outs := by
      rw [List.map_map]
      have hcong : ∀ i ∈ List.range outs.length,
          ((fun v => ((0 : G) :: (ins ++ outs)).getD v 0) ∘
              fun i => i + ins.length + 1) i = outs.getD i 0 := by
        intro i hi
        simp only [Function.comp_apply, List.getD_cons_succ]
        rw [List.getD_append_right _ _ _ _ (Nat.le_add_left _ _)]
        rw [Nat.add_sub_cancel]
      rw [List.map_congr_left hcong, map_range_getD]
    rw [balance_custom_constraints_satisfied_iff _ _ _ rfl
      List.getD_cons_zero (by simp)
      (fun v hv => by
        simp only [List.mem_map, List.mem_range] at hv
        obtain ⟨i, hi, rfl⟩ := hv
        simp only [List.length_cons, List.length_append]
        omega)
      (fun v hv => by
        simp only [List.mem_map, List.mem_range] at hv
        obtain ⟨i, hi, rfl⟩ := hv
        simp only [List.length_cons, List.length_append]
        omega)]
    rw [hinvals, houtvals]
  refine ⟨key F inferInstance inQs outQs, ?_, ?_⟩
  · exact (key ℚ inferInstance _ _).mpr (by norm_num)
  · intro h
    have := (key ℚ inferInstance _ _).mp h
    norm_num at this

end Theorems
